import Mathlib

/-!
# A verification model of `gresql` (`src/main.rs`)

`gresql` greps SQL files for statements of given kinds (SELECT / INSERT /
UPDATE / DELETE / MERGE) that reference given tables.  This file is a shallow
embedding of the program's core into Lean:

* strings are modelled as `List Char` (the sources are ASCII);
* a file is a list of raw lines (`read_line` output with the newline removed;
  every consumer in the source applies `trim` to the raw line first, so
  keeping or dropping the terminating newline is immaterial);
* the two regexes of the Phase-1 prefilter have the fixed shapes
  `\b((?i)K1|…|Kn)\b` and `(t1|…|tn)\b`; their matching semantics on a line is
  modelled directly (the `grep` searcher runs the pattern line by line);
* `u8` arithmetic that can panic (the block-comment nesting counter decrement,
  a failing `File::open(..).unwrap()`) is modelled with `Except`:
  `FindError.underflow` is the debug-mode subtraction panic,
  `FindError.openFail` the `unwrap` panic on an unreadable file, and
  `FindError.hang` the infinite loop reached when the accumulation loop hits
  end of file while the comment-nesting counter is still positive.
-/

-- ============================================================================
-- Character classes (ASCII fragment used by the program)
-- ============================================================================

/-- Regex word characters (`\w` = `[0-9A-Za-z_]`), as used by `\b`. -/
def word_char (c : Char) : Bool := c.isAlphanum || c = '_'

/-- The identifier class of the table-capture groups: `[@#[:alnum:]_]`. -/
def ident_char (c : Char) : Bool := c.isAlphanum || c = '_' || c = '@' || c = '#'

/-- Whitespace (`char::is_whitespace` / regex `\s`, ASCII fragment). -/
def ws_char (c : Char) : Bool := c.isWhitespace

-- ============================================================================
-- String helpers used by the source (`trim`, `trim_start_matches`,
-- `split`, `find("--")`, `replace("\t", " ")`)
-- ============================================================================

/-- Rust `str::trim`: drop leading and trailing whitespace. -/
def trim (l : List Char) : List Char :=
  ((l.dropWhile ws_char).reverse.dropWhile ws_char).reverse

/-- Rust `str::trim_start_matches(';')`. -/
def trim_semis (l : List Char) : List Char := l.dropWhile (fun c => c = ';')

/-- Rust `str::split(sep)` for a one-character pattern (so `""` splits to
`[""]`, and separators at the edges produce empty pieces). -/
def split_char (sep : Char) : List Char → List (List Char)
  | [] => [[]]
  | c :: cs =>
    let r := split_char sep cs
    if c = sep then [] :: r
    else
      match r with
      | h :: t => (c :: h) :: t
      | [] => [[c]]

/-- The closure `trim_comment` in `find_statements`: cut the line at the first
occurrence of the line-comment marker `--`. -/
def trim_comment : List Char → List Char
  | [] => []
  | c :: rest =>
    if c = '-' && rest.head? == some '-' then []
    else c :: trim_comment rest

/-- `s.replace("\t", " ")`, character map. -/
def tab_to_space (c : Char) : Char := if c = '\t' then ' ' else c

/-- The closure `clean_text`: `trim_comment(s.replace("\t", " "))`. -/
def clean_text (s : List Char) : List Char := trim_comment (s.map tab_to_space)

/-- `line.starts_with("--")`. -/
def line_comment (l : List Char) : Bool := ['-', '-'].isPrefixOf l

/-- Rust `str::contains(pat)`: `pat` occurs as a contiguous substring. -/
def contains_seq (pat : List Char) : List Char → Bool
  | [] => pat.isEmpty
  | c :: cs => pat.isPrefixOf (c :: cs) || contains_seq pat cs

/-- `line.contains("/*")`. -/
def has_open (l : List Char) : Bool := contains_seq ['/', '*'] l

/-- `line.contains("*/")`. -/
def has_close (l : List Char) : Bool := contains_seq ['*', '/'] l

/-- `line.split_whitespace().next()`: the first whitespace-delimited token
(empty when the line is all whitespace; the source `unwrap`s there, which is
unreachable because the scanned line is trimmed and non-empty). -/
def first_word (l : List Char) : List Char :=
  (l.dropWhile ws_char).takeWhile (fun c => !ws_char c)

-- ============================================================================
-- `StatementType` (statement kinds)
-- ============================================================================

inductive StatementType
  | Select
  | Insert
  | Update
  | Delete
  | Merge
deriving DecidableEq, Repr

namespace StatementType

/-- `impl TryFrom<char> for StatementType`. -/
def try_from_char (c : Char) : Option StatementType :=
  if c = 's' then some Select
  else if c = 'i' then some Insert
  else if c = 'u' then some Update
  else if c = 'd' then some Delete
  else if c = 'm' then some Merge
  else none

/-- `impl TryFrom<String> for StatementType` (full lowercase keyword). -/
def try_from_string (s : List Char) : Option StatementType :=
  if s = ("select").toList then some Select
  else if s = ("insert").toList then some Insert
  else if s = ("update").toList then some Update
  else if s = ("delete").toList then some Delete
  else if s = ("merge").toList then some Merge
  else none

/-- `impl Display for StatementType`: the canonical uppercase display form. -/
def display : StatementType → List Char
  | Select => ("SELECT").toList
  | Insert => ("INSERT").toList
  | Update => ("UPDATE").toList
  | Delete => ("DELETE").toList
  | Merge => ("MERGE").toList

/-- `#[derive(Debug)]` names (what `{:?}` prints). -/
def debug_name : StatementType → List Char
  | Select => ("Select").toList
  | Insert => ("Insert").toList
  | Update => ("Update").toList
  | Delete => ("Delete").toList
  | Merge => ("Merge").toList

/-- The lowercase keyword that triggers statement accumulation for a kind. -/
def kw_of : StatementType → List Char
  | Select => ("select").toList
  | Insert => ("insert").toList
  | Update => ("update").toList
  | Delete => ("delete").toList
  | Merge => ("merge").toList

end StatementType

/-- `parse_statement_types`: the set of unique characters of the specifier
(the source collects them in a `HashSet<char>`; we determinize with `dedup`,
which is faithful up to the — irrelevant — iteration order); a `*` character
short-circuits to the non-`Select` wildcard set. -/
def parse_statement_types (s : List Char) : List StatementType :=
  let char_set := s.dedup
  if '*' ∈ char_set then
    [StatementType.Insert, StatementType.Update, StatementType.Delete, StatementType.Merge]
  else
    char_set.filterMap StatementType.try_from_char

-- ============================================================================
-- `SearchQuery` and clause parsing
-- ============================================================================

structure SearchQuery where
  statement_types : List StatementType
  tables : List (List Char)
deriving DecidableEq, Repr

/-- `parse_search_queries`: split each specifier on `:`; one segment means a
table list with wildcard kinds, two segments mean kind specifier + table list,
anything else drops the clause (`filter_map`). -/
def parse_search_queries (strings : List (List Char)) : List SearchQuery :=
  strings.filterMap fun s =>
    match split_char ':' s with
    | [t] => some ⟨parse_statement_types ['*'], split_char ',' t⟩
    | [k, t] => some ⟨parse_statement_types k, split_char ',' t⟩
    | _ => none

-- ============================================================================
-- Phase-1 pattern semantics
--
-- `SearchQuery::statement_pattern` builds `\b((?i)K1|…|Kn)\b` from the kinds'
-- display names, `SearchQuery::table_pattern` builds `(t1|…|tn)\b` from the
-- literal table names.  The grep searcher applies the pattern line by line.
-- We model a match of these two shapes directly: a scan over all start
-- positions of a line, with `\b` as usual (word-ness differs between the two
-- adjacent characters; the edge of the line counts as non-word).
-- ============================================================================

/-- Word-ness of an optional character (`none` = line edge = non-word). -/
def is_word_opt : Option Char → Bool
  | none => false
  | some c => word_char c

/-- Case-insensitively strip the (lowercase) keyword `kw` from the front of
`s`, returning the rest. -/
def ci_strip : List Char → List Char → Option (List Char)
  | [], s => some s
  | _ :: _, [] => none
  | k :: ks, c :: cs => if c.toLower = k then ci_strip ks cs else none

/-- Generic scan: does predicate `p prev suffix` hold at some position of the
line (including the end-of-line position)?  `prev` is the preceding character. -/
def scan_any (p : Option Char → List Char → Bool) : Option Char → List Char → Bool
  | prev, [] => p prev []
  | prev, c :: cs => p prev (c :: cs) || scan_any p (some c) cs

/-- `\b(?i:kw)` followed by `\b` matches at the current position:
the previous character is non-word, `kw` matches case-insensitively, and the
next character after it is non-word. -/
def kw_at (kw : List Char) (prev : Option Char) (s : List Char) : Bool :=
  !is_word_opt prev &&
    match ci_strip kw s with
    | some rest => !is_word_opt rest.head?
    | none => false

/-- One alternative of `\b((?i)…)\b` matches somewhere in the line. -/
def line_has_kw (kw : List Char) (l : List Char) : Bool :=
  scan_any (kw_at kw) none l

/-- `t` followed by `\b` matches at the current position: `t` is a literal
prefix of the suffix and the word-ness of the last character of the match
(or, for empty `t`, of the previous character) differs from that of the next. -/
def table_at (t : List Char) (prev : Option Char) (s : List Char) : Bool :=
  t.isPrefixOf s &&
    (is_word_opt (match t.getLast? with | some c => some c | none => prev)
      != is_word_opt ((s.drop t.length).head?))

/-- One alternative of `(t1|…|tn)\b` matches somewhere in the line. -/
def line_has_table (t : List Char) (l : List Char) : Bool :=
  scan_any (table_at t) none l

/-- The whole-file test of `statement_pattern` (`\b((?i)K1|…|Kn)\b`): some
line contains some kind keyword with word boundaries.  With an empty kind
list the pattern degenerates to `\b((?i))\b` = a bare word boundary, which a
line has exactly when it contains a word character. -/
def stmt_pattern_matches (q : SearchQuery) (lines : List (List Char)) : Bool :=
  if q.statement_types.isEmpty then
    lines.any (fun l => l.any word_char)
  else
    lines.any (fun l =>
      q.statement_types.any (fun st => line_has_kw (StatementType.kw_of st) l))

/-- The whole-file test of `table_pattern` (`(t1|…|tn)\b`): some line contains
some table name followed by a word boundary. -/
def table_pattern_matches (q : SearchQuery) (lines : List (List Char)) : Bool :=
  lines.any (fun l => q.tables.any (fun t => line_has_table t l))

-- ============================================================================
-- `parse_table`: the per-kind keyword-anchored capture
-- `\b(?i:anchor)\s+([@#[:alnum:]_]+)`, leftmost match, with the
-- Update/Delete fallback anchors.
-- ============================================================================

/-- The pattern `\b(?i:kw)\s+([@#[:alnum:]_]+)` matched at the current
position: strip the keyword case-insensitively, require at least one
whitespace character, then capture the maximal non-empty identifier run. -/
def capture_at (kw : List Char) (s : List Char) : Option (List Char) :=
  match ci_strip kw s with
  | none => none
  | some rest =>
    if (rest.takeWhile ws_char).isEmpty then none
    else
      let after := rest.dropWhile ws_char
      let tok := after.takeWhile ident_char
      if tok.isEmpty then none else some tok

/-- Leftmost match of `\b(?i:kw)\s+([@#[:alnum:]_]+)` in `s`; returns the
capture group.  `prev` is the character before the current position (for the
leading `\b`; the keyword starts with a letter, so the boundary holds exactly
when `prev` is absent or non-word). -/
def find_capture (kw : List Char) : Option Char → List Char → Option (List Char)
  | _, [] => none
  | prev, c :: cs =>
    match (if is_word_opt prev then none else capture_at kw (c :: cs)) with
    | some t => some t
    | none => find_capture kw (some c) cs

/-- The closure `parse_table`: anchor `into` for Insert, `from` for
Select/Update/Delete, `merge` for Merge; if the `from` anchor fails, Update
re-anchors on `update` and Delete on `delete`. -/
def parse_table (statement_type : StatementType) (s : List Char) : Option (List Char) :=
  let primary :=
    match statement_type with
    | StatementType.Insert => ("into").toList
    | StatementType.Select | StatementType.Update | StatementType.Delete => ("from").toList
    | StatementType.Merge => ("merge").toList
  match find_capture primary none s with
  | some t => some t
  | none =>
    match statement_type with
    | StatementType.Update => find_capture ("update").toList none s
    | StatementType.Delete => find_capture ("delete").toList none s
    | _ => none

-- ============================================================================
-- `find_statements`: the per-file, per-clause scan
-- ============================================================================

structure Statement where
  file_path : Nat
  statement_type : StatementType
  table : List Char
  begin : Nat
  ends : Nat
  text : List Char
deriving DecidableEq, Repr

inductive FindError
  | underflow -- `comment_level -= 1` with `comment_level == 0` (u8 underflow)
  | hang -- end of file inside a statement with `comment_level > 0`
  | openFail -- `File::open(file_path).unwrap()` on an unreadable file
deriving DecidableEq, Repr

/-- The block-comment-marker bookkeeping shared by both loop bodies:
```text
if line.contains("/*") { comment_level += 1; }
if line.contains("*/") { comment_level -= 1; }
```
the decrement of the `u8` counter at zero is the underflow panic. -/
def bump_level (line : List Char) (level : Nat) : Except FindError Nat :=
  let lv := if has_open line then level + 1 else level
  if has_close line then
    if lv = 0 then .error .underflow else .ok (lv - 1)
  else .ok lv

/-- The closure `try_statement_type_from_line`: lowercase the first
whitespace-delimited token and run the full-keyword parser. -/
def try_statement_type_from_line (line : List Char) : Option StatementType :=
  StatementType.try_from_string ((first_word line).map Char.toLower)

/-- Statement emission at the end of accumulation: run `parse_table` on the
accumulated text and keep the statement only if the extracted table is in the
clause's table list. -/
def mk_stmt (q : SearchQuery) (fp : Nat) (st : StatementType) (b e : Nat)
    (text : List Char) : Option Statement :=
  match parse_table st text with
  | some table => if table ∈ q.tables then some ⟨fp, st, table, b, e, text⟩ else none
  | none => none

/-- The scanner state: `seeking` is the outer loop of `find_statements`,
`accum st b text` the inner accumulation loop (triggering kind, `begin`
line index, accumulated statement text). -/
inductive Mode
  | seeking
  | accum (st : StatementType) (b : Nat) (text : List Char)

/-- The two nested loops of `find_statements`, in lockstep over the lines.
`i` is the index of the line about to be read.  Each iteration of either Rust
loop consumes exactly one line, except that the accumulation loop performs one
final iteration on the empty string at end of file (`read_line` returns no
bytes but the body still runs, incrementing `i`): that is the `accum … []`
case, with `i` one past the last line. -/
def run (q : SearchQuery) (fp : Nat) : Mode → Nat → Nat → List (List Char) →
    Except FindError (List Statement)
  | .seeking, _, _, [] => .ok []
  | .accum st b text, level, i, [] =>
    -- the phantom EOF iteration: empty line, then terminate or loop forever
    if 0 < level then .error .hang
    else .ok (mk_stmt q fp st b i text).toList
  | .seeking, level, i, r :: rs =>
    let line := trim_semis (trim r)
    if line = [] then run q fp .seeking level (i + 1) rs
    else if line_comment line then run q fp .seeking level (i + 1) rs
    else
      match bump_level line level with
      | .error e => .error e
      | .ok lv =>
        if 0 < lv then run q fp .seeking lv (i + 1) rs
        else
          match try_statement_type_from_line line with
          | none => run q fp .seeking lv (i + 1) rs
          | some st =>
            if st ∈ q.statement_types then
              run q fp (.accum st i (clean_text line ++ [' '])) lv (i + 1) rs
            else run q fp .seeking lv (i + 1) rs
  | .accum st b text, level, i, r :: rs =>
    let line := trim r
    if line_comment line then run q fp (.accum st b text) level (i + 1) rs
    else
      match bump_level line level with
      | .error e => .error e
      | .ok lv =>
        if 0 < lv then run q fp (.accum st b text) lv (i + 1) rs
        else if line ≠ [] ∧ line.head? ≠ some ';' then
          run q fp (.accum st b (text ++ clean_text line ++ [' '])) lv (i + 1) rs
        else
          match run q fp .seeking lv (i + 1) rs with
          | .error e => .error e
          | .ok tail => .ok ((mk_stmt q fp st b i text).toList ++ tail)

/-- `find_statements` on a readable file: scan the lines; `None` when no
statement matched (the source returns `Option<Vec<Statement>>`). -/
def find_statements (fp : Nat) (q : SearchQuery) (lines : List (List Char)) :
    Except FindError (Option (List Statement)) :=
  (run q fp .seeking 0 0 lines).map (fun s => if s = [] then none else some s)

/-- `find_statements` including the `File::open(file_path).unwrap()`: an
unreadable file (`none` content) panics instead of being skipped. -/
def find_statements_io (fp : Nat) (q : SearchQuery)
    (content : Option (List (List Char))) : Except FindError (Option (List Statement)) :=
  match content with
  | none => .error .openFail
  | some lines => find_statements fp q lines

-- ============================================================================
-- The two-phase pipeline of `main`
-- ============================================================================

/-- A file as the pipeline sees it: a path identifier and its content
(`none` = the file cannot be opened / searched). -/
abbrev FileEntry := Nat × Option (List (List Char))

/-- The closure `file_is_match` of Phase 1: both derived patterns must match;
a searcher error on the file is reported and the file treated as
non-matching (`return false`). -/
def file_is_match (q : SearchQuery) (content : Option (List (List Char))) : Bool :=
  match content with
  | none => false
  | some lines => stmt_pattern_matches q lines && table_pattern_matches q lines

/-- Phase 1 of `main`: keep the files on which every clause's two patterns
match. -/
def phase1 (queries : List SearchQuery) (files : List FileEntry) : List FileEntry :=
  files.filter (fun f => queries.all (fun q => file_is_match q f.2))

/-- One `matched_files.drain_filter(..)` pass of Phase 2 (`main`): the closure
returns `true` — and `drain_filter` therefore REMOVES the file — exactly when
`find_statements` found statements, extending the collected statements; a file
yielding no statements is kept.  (This is what the source does; its own
comment says the opposite.) -/
def phase2_clause (q : SearchQuery) : List FileEntry →
    Except FindError (List FileEntry × List Statement)
  | [] => .ok ([], [])
  | f :: fs =>
    match find_statements_io f.1 q f.2 with
    | .error e => .error e
    | .ok r =>
      match phase2_clause q fs with
      | .error e => .error e
      | .ok (keep, st) =>
        match r with
        | some found => .ok (keep, found ++ st)
        | none => .ok (f :: keep, st)

/-- Phase 2 of `main`: fold the drain-filter pass over the clauses,
accumulating all collected statements. -/
def phase2 : List SearchQuery → List FileEntry → List Statement →
    Except FindError (List FileEntry × List Statement)
  | [], files, stmts => .ok (files, stmts)
  | q :: qs, files, stmts =>
    match phase2_clause q files with
    | .error e => .error e
    | .ok (files', st') => phase2 qs files' (stmts ++ st')

-- ============================================================================
-- `print_statements`: result-row formatting.
-- Every field is formatted with `{:?}` (the `Debug` trait), including the
-- delimiter character, so a `char` prints with surrounding single quotes,
-- strings and the path print with surrounding double quotes, and the
-- statement kind prints its `Debug` variant name (`Insert`), not the
-- uppercase `Display` form (`INSERT`) the source defines but never uses here.
-- ============================================================================

/-- Rust `Debug` escaping of a character inside a literal (ASCII fragment;
`q` is the quote character that must be escaped in this context). -/
def rust_escape_char (q : Char) (c : Char) : List Char :=
  if c = '\\' then ['\\', '\\']
  else if c = q then ['\\', q]
  else if c = '\n' then ['\\', 'n']
  else if c = '\t' then ['\\', 't']
  else if c = '\r' then ['\\', 'r']
  else [c]

/-- `format!("{:?}", c)` for a `char`. -/
def debug_char (c : Char) : List Char :=
  '\'' :: rust_escape_char '\'' c ++ ['\'']

/-- `format!("{:?}", s)` for a string (also what `{:?}` prints for
`path.display()`, whose `Debug` quotes the path). -/
def debug_string (s : List Char) : List Char :=
  '"' :: (s.flatMap (rust_escape_char '"')) ++ ['"']

/-- `format!("{:?}", n)` for a `usize`. -/
def debug_usize (n : Nat) : List Char := (Nat.repr n).toList

/-- One output row of `print_statements` with the hide-statement-text flag:
`writeln!(lock, "{:?}{:?}{:?}{:?}{:?}{:?}{:?}{:?}{:?}", path.display(), del,
begin, del, end, del, type, del, table)`. -/
def print_row_hidden (del : Char) (path : List Char) (s : Statement) : List Char :=
  debug_string path ++ debug_char del ++ debug_usize s.begin ++ debug_char del ++
    debug_usize s.ends ++ debug_char del ++ StatementType.debug_name s.statement_type ++
    debug_char del ++ debug_string s.table

/-- One output row of `print_statements` without the flag (two more fields:
the delimiter again and the statement text). -/
def print_row (del : Char) (path : List Char) (s : Statement) : List Char :=
  print_row_hidden del path s ++ debug_char del ++ debug_string s.text

-- The row shape the specification describes: plain fields joined by the raw
-- delimiter, with the kind in its uppercase display form.  (Modelled from the
-- spec for comparison with `print_row_hidden`.)

/-- The spec's claimed row shape (hide-statement-text case): `path, begin,
end, KIND, table` joined by the delimiter character. -/
def spec_row_hidden (del : Char) (path : List Char) (s : Statement) : List Char :=
  path ++ [del] ++ debug_usize s.begin ++ [del] ++ debug_usize s.ends ++ [del] ++
    StatementType.display s.statement_type ++ [del] ++ s.table

-- ============================================================================
-- Invariants of the scanner, used to relate Phase 2 to Phase 1
-- ============================================================================

/-- `last_ctx l prev`: the character preceding the position just after `l`
(the last character of `l`, or `prev` when `l` is empty). -/
def last_ctx : List Char → Option Char → Option Char
  | [], prev => prev
  | c :: cs, _ => last_ctx cs (some c)

/-- `ext` is a concatenation of cleaned-line pieces (each with the trailing
separator space) drawn from `rest` — the shape of the text the accumulation
loop appends after the triggering line. -/
def ExtFrom (rest : List (List Char)) (ext : List Char) : Prop :=
  ∃ ps : List (List Char),
    (∀ p ∈ ps, ∃ l ∈ rest, p = clean_text (trim l) ++ [' ']) ∧ ext = ps.flatten

/-- The statement `s` was triggered on some line of `rest`: that line's
processed form starts with the statement's keyword, and the statement text is
the cleaned trigger line followed by pieces of later lines. -/
def TriggeredIn (rest : List (List Char)) (s : Statement) : Prop :=
  ∃ r ∈ rest,
    try_statement_type_from_line (trim_semis (trim r)) = some s.statement_type ∧
    ∃ ext, s.text = (clean_text (trim_semis (trim r)) ++ [' ']) ++ ext ∧ ExtFrom rest ext

/-- Facts holding of every statement `run` emits. -/
def StmtOk (q : SearchQuery) (fp : Nat) (s : Statement) : Prop :=
  s.file_path = fp ∧ parse_table s.statement_type s.text = some s.table ∧
    s.table ∈ q.tables ∧ s.statement_type ∈ q.statement_types ∧ s.begin + 1 ≤ s.ends

/-- `t` occurs in `l` with a non-word character (or the end of `l`)
immediately after the occurrence. -/
def OccursNW (t l : List Char) : Prop :=
  ∃ pre suf, l = pre ++ t ++ suf ∧ ∀ c, suf.head? = some c → word_char c = false

/-- `t` occurs in `l` with a non-identifier character (or the end of `l`)
immediately after the occurrence. -/
def OccursNI (t l : List Char) : Prop :=
  ∃ pre suf, l = pre ++ t ++ suf ∧ ∀ c, suf.head? = some c → ident_char c = false

-- ============================================================================
-- Concrete inputs used by the claim theorems
-- ============================================================================

/-- Clause `u:t_pick_detail`. -/
def q_upd : SearchQuery := ⟨[StatementType.Update], [("t_pick_detail").toList]⟩

/-- Clause `d:t_pick_detail`. -/
def q_del : SearchQuery := ⟨[StatementType.Delete], [("t_pick_detail").toList]⟩

/-- Clause `i:t_pick_detail`. -/
def q_ins : SearchQuery := ⟨[StatementType.Insert], [("t_pick_detail").toList]⟩

/-- Clause `u:x@` — a table name ending in a non-word identifier character. -/
def q_at : SearchQuery := ⟨[StatementType.Update], [("x@").toList]⟩

/-- A file with one UPDATE and one DELETE statement, both to `t_pick_detail`. -/
def file_upd_del : List (List Char) :=
  [("UPDATE t_pick_detail SET x=1").toList, [],
   ("DELETE FROM t_pick_detail WHERE y=2").toList, []]

/-- A file with a single INSERT statement followed by a blank line. -/
def file_ins : List (List Char) :=
  [("INSERT INTO t_pick_detail (a) VALUES (1);").toList, []]

/-- A file whose only line is an UPDATE statement (no terminator follows). -/
def file_upd_last : List (List Char) := [("UPDATE t_pick_detail SET x=1").toList]

/-- A file updating the table `x@`. -/
def file_at : List (List Char) := [("update x@ set c=1").toList]

/-- The statement `find_statements` emits for `file_upd_del` under `q_upd`. -/
def stmt_upd : Statement :=
  ⟨0, StatementType.Update, ("t_pick_detail").toList, 0, 1,
    ("UPDATE t_pick_detail SET x=1 ").toList⟩

/-- The statement `find_statements` emits for `file_upd_del` under `q_del`. -/
def stmt_del : Statement :=
  ⟨0, StatementType.Delete, ("t_pick_detail").toList, 2, 3,
    ("DELETE FROM t_pick_detail WHERE y=2 ").toList⟩

/-- The statement `find_statements` emits for `file_ins` under `q_ins`. -/
def stmt_ins : Statement :=
  ⟨0, StatementType.Insert, ("t_pick_detail").toList, 0, 1,
    ("INSERT INTO t_pick_detail (a) VALUES (1); ").toList⟩

/-- The statement `find_statements` emits for `file_upd_last` under `q_upd`. -/
def stmt_last : Statement :=
  ⟨0, StatementType.Update, ("t_pick_detail").toList, 0, 1,
    ("UPDATE t_pick_detail SET x=1 ").toList⟩

/-- The statement `find_statements` emits for `file_at` under `q_at`. -/
def stmt_at : Statement :=
  ⟨0, StatementType.Update, ("x@").toList, 0, 1, ("update x@ set c=1 ").toList⟩

-- ============================================================================
-- Lemmas about the clause parser
-- ============================================================================

theorem split_char_no_sep {sep : Char} : ∀ {l : List Char}, sep ∉ l →
    split_char sep l = [l]
  | [], _ => rfl
  | c :: cs, h => by
    have hc : ¬ c = sep := fun hcs => h (hcs ▸ List.mem_cons_self c cs)
    have ih := split_char_no_sep (l := cs) (fun hm => h (List.mem_cons_of_mem c hm))
    simp only [split_char, if_neg hc, ih]

theorem split_char_sep_left {sep : Char} : ∀ {k : List Char} (t : List Char), sep ∉ k →
    split_char sep (k ++ (sep :: t)) = k :: split_char sep t
  | [], t, _ => by simp [split_char]
  | c :: ks, t, h => by
    have hc : ¬ c = sep := fun hcs => h (hcs ▸ List.mem_cons_self c ks)
    have ih := split_char_sep_left (k := ks) t (fun hm => h (List.mem_cons_of_mem c hm))
    simp only [List.cons_append, split_char, if_neg hc]
    rw [show split_char sep (ks.append (sep :: t)) = ks :: split_char sep t from ih]

/-- C6: a clause specifier with no colon parses to the comma-split table
list with the non-Select wildcard kind-set; with exactly one colon, to the
left segment's kind-set and the comma-split right segment (order-preserved);
with two or more colons the clause is silently dropped while the surrounding
clauses are kept. -/
theorem c6_clause_parsing (s k t a b c : List Char) (pre suf : List (List Char))
    (hs : ':' ∉ s) (hk : ':' ∉ k) (ht : ':' ∉ t)
    (ha : ':' ∉ a) (hb : ':' ∉ b) (hc : ':' ∉ c) :
    parse_search_queries [s] =
      [⟨[StatementType.Insert, StatementType.Update, StatementType.Delete,
         StatementType.Merge], split_char ',' s⟩]
    ∧ parse_search_queries [k ++ (':' :: t)] =
        [⟨parse_statement_types k, split_char ',' t⟩]
    ∧ parse_search_queries (pre ++ ((a ++ (':' :: (b ++ (':' :: c)))) :: suf)) =
        parse_search_queries pre ++ parse_search_queries suf := by
  refine ⟨?_, ?_, ?_⟩
  · simp [parse_search_queries, split_char_no_sep hs, parse_statement_types]
  · have hsplit : split_char ':' (k ++ (':' :: t)) = k :: [t] := by
      rw [split_char_sep_left t hk, split_char_no_sep ht]
    simp [parse_search_queries, hsplit]
  · have hsplit : split_char ':' (a ++ (':' :: (b ++ (':' :: c)))) = a :: b :: [c] := by
      rw [split_char_sep_left _ ha, split_char_sep_left _ hb, split_char_no_sep hc]
    show List.filterMap _ (pre ++ ((a ++ (':' :: (b ++ (':' :: c)))) :: suf)) = _
    rw [List.filterMap_append]
    rw [List.filterMap_cons]
    simp only [hsplit]
    rfl

/-- C6 witness: concrete clause specifiers of each shape. -/
theorem c6_clause_parsing_witness :
    parse_search_queries [("t_order").toList] =
      [⟨[StatementType.Insert, StatementType.Update, StatementType.Delete,
         StatementType.Merge], split_char ',' (("t_order").toList)⟩]
    ∧ parse_search_queries [("ud").toList ++ (':' :: ("t1,t2").toList)] =
        [⟨parse_statement_types (("ud").toList), split_char ',' (("t1,t2").toList)⟩] := by
  have h := c6_clause_parsing (("t_order").toList) (("ud").toList) (("t1,t2").toList)
    [] [] [] [] [] (by decide) (by decide) (by decide) (by decide) (by decide) (by decide)
  exact ⟨h.1, h.2.1⟩

/-- C7: a kind specifier containing `*` parses to exactly
{Insert, Update, Delete, Merge} (Select excluded) regardless of the other
characters; otherwise each character resolves independently through the
single-character mapping, duplicates and unrecognized characters contribute
nothing, and a specifier of only unrecognized characters yields the empty
kind-set. -/
theorem c7_kind_specifier (s : List Char) :
    (('*' ∈ s) → parse_statement_types s =
      [StatementType.Insert, StatementType.Update, StatementType.Delete,
       StatementType.Merge])
    ∧ (('*' ∉ s) → ∀ st, st ∈ parse_statement_types s ↔
        ∃ c ∈ s, StatementType.try_from_char c = some st)
    ∧ (('*' ∉ s) → (∀ c ∈ s, StatementType.try_from_char c = none) →
        parse_statement_types s = []) := by
  refine ⟨?_, ?_, ?_⟩
  · intro h
    have : '*' ∈ s.dedup := List.mem_dedup.mpr h
    simp [parse_statement_types, this]
  · intro h st
    simp [parse_statement_types, List.mem_dedup, h, List.mem_filterMap]
  · intro h hall
    have : '*' ∉ s.dedup := fun hm => h (List.mem_dedup.mp hm)
    simp only [parse_statement_types, if_neg this]
    rw [List.filterMap_eq_nil_iff]
    exact fun a ha => hall a (List.mem_dedup.mp ha)

/-- C7 witness: a wildcard-bearing specifier and an all-unrecognized one. -/
theorem c7_kind_specifier_witness :
    parse_statement_types (("i*s").toList) =
      [StatementType.Insert, StatementType.Update, StatementType.Delete,
       StatementType.Merge]
    ∧ parse_statement_types (("xyz?").toList) = [] :=
  ⟨(c7_kind_specifier (("i*s").toList)).1 (by decide),
   (c7_kind_specifier (("xyz?").toList)).2.2 (by decide) (by decide)⟩

-- ============================================================================
-- Table extraction (C5) and comment-counter underflow (C9)
-- ============================================================================

/-- C5: table extraction anchors `into` for Insert, `from` for
Select/Update/Delete and `merge` for Merge, capturing the identifier token
following the anchor; when the `from` anchor fails, Update falls back to the
`update` anchor and Delete to the `delete` anchor while Select stays empty,
so `UPDATE t_order SET x=1 WHERE y=2;` extracts the fallback capture
`t_order` and a SELECT with no FROM extracts nothing. -/
theorem c5_table_extraction (s : List Char)
    (h : find_capture (("from").toList) none s = none) :
    parse_table StatementType.Update s = find_capture (("update").toList) none s
    ∧ parse_table StatementType.Delete s = find_capture (("delete").toList) none s
    ∧ parse_table StatementType.Select s = none
    ∧ parse_table StatementType.Update (("UPDATE t_order SET x=1 WHERE y=2;").toList) =
        some (("t_order").toList)
    ∧ parse_table StatementType.Update (("UPDATE t_order SET x=1 WHERE y=2;").toList) =
        find_capture (("update").toList) none (("UPDATE t_order SET x=1 WHERE y=2;").toList)
    ∧ parse_table StatementType.Insert (("INSERT INTO t_pick_detail (a) VALUES (1);").toList) =
        some (("t_pick_detail").toList)
    ∧ parse_table StatementType.Merge (("MERGE t_target USING src ON a=b;").toList) =
        some (("t_target").toList)
    ∧ parse_table StatementType.Select (("SELECT 1;").toList) = none := by
  have h' : find_capture ['f', 'r', 'o', 'm'] none s = none := h
  refine ⟨?_, ?_, ?_, by decide, by decide, by decide, by decide, by decide⟩
  · simp [parse_table, h']
  · simp [parse_table, h']
  · simp [parse_table, h']

/-- C5 witness: the fallback equations applied to the spec's one-line UPDATE
statement, whose text contains no `from` anchor. -/
theorem c5_table_extraction_witness :
    parse_table StatementType.Update (("UPDATE t_order SET x=1 WHERE y=2;").toList) =
      find_capture (("update").toList) none (("UPDATE t_order SET x=1 WHERE y=2;").toList)
    ∧ parse_table StatementType.Select (("UPDATE t_order SET x=1 WHERE y=2;").toList) = none :=
  ⟨(c5_table_extraction (("UPDATE t_order SET x=1 WHERE y=2;").toList) (by decide)).1,
   (c5_table_extraction (("UPDATE t_order SET x=1 WHERE y=2;").toList) (by decide)).2.2.1⟩

/-- C9: the block-comment nesting counter has no floor check — a processed
line that contains a close marker and no open marker, and is not itself
skipped as empty or as a line comment, drives the `u8` counter below zero,
reaching the decrement's underflow panic branch. -/
theorem c9_underflow (q : SearchQuery) (fp : Nat) (l : List Char)
    (h1 : trim_semis (trim l) ≠ [])
    (h2 : line_comment (trim_semis (trim l)) = false)
    (h3 : has_open (trim_semis (trim l)) = false)
    (h4 : has_close (trim_semis (trim l)) = true) :
    find_statements fp q [l] = .error .underflow := by
  unfold find_statements
  have hb : bump_level (trim_semis (trim l)) 0 = .error .underflow := by
    simp [bump_level, h3, h4]
  simp only [run, if_neg h1, h2, Bool.false_eq_true, if_false, hb]
  rfl

/-- C9 witness: a file whose only line is a bare close marker. -/
theorem c9_underflow_witness :
    find_statements 0 q_upd [("*/").toList] = .error .underflow :=
  c9_underflow q_upd 0 (("*/").toList) (by decide) (by decide) (by decide) (by decide)

-- ============================================================================
-- The Phase-2 drain-filter inversion (C1)
-- ============================================================================

/-- C1: the claim says a file yielding zero statements for a clause is
dropped and a file remains only if it matched every clause; the code does the
opposite — `drain_filter`'s closure returns `true` (remove) for files that DID
produce statements, as evaluated here: `file_upd_del` produces a statement
for both clauses `u:t_pick_detail` and `d:t_pick_detail`, yet Phase 2 removes
it at the first clause and ends with the empty file set (and the DELETE
statements are never even collected). -/
theorem c1_phase2_inverted :
    find_statements 0 q_upd file_upd_del = .ok (some [stmt_upd])
    ∧ find_statements 0 q_del file_upd_del = .ok (some [stmt_del])
    ∧ phase2 [q_upd, q_del] [(0, some file_upd_del)] [] = .ok ([], [stmt_upd]) := by
  refine ⟨rfl, rfl, rfl⟩

-- ============================================================================
-- Round-trip on the single-INSERT file (C3)
-- ============================================================================

/-- C3 counterexample: for the file `INSERT INTO t_pick_detail (a) VALUES
(1);` followed by a blank line, the emitted statement does NOT have
`begin = end`: `end` is the index of the terminating blank line, one past the
statement's line. -/
theorem c3_counterexample :
    find_statements 0 q_ins file_ins = .ok (some [stmt_ins])
    ∧ ¬ stmt_ins.begin = stmt_ins.ends := by
  refine ⟨rfl, by decide⟩

/-- C3 amended: searching that file with clause `i:t_pick_detail` yields
exactly one Statement with kind Insert, table `t_pick_detail`, `begin` = the
statement's (zero-based) line index 0, and `end` = the terminating blank
line's index 1 (= begin + 1), per the invariant that `end` is the index of
the terminating blank line. -/
theorem c3_roundtrip_amended :
    find_statements 0 q_ins file_ins = .ok (some [stmt_ins])
    ∧ stmt_ins.statement_type = StatementType.Insert
    ∧ stmt_ins.table = ("t_pick_detail").toList
    ∧ stmt_ins.begin = 0 ∧ stmt_ins.ends = 1 := by
  refine ⟨rfl, rfl, rfl, rfl, rfl⟩

-- ============================================================================
-- Result-row formatting (C4)
-- ============================================================================

/-- C4: the claim says a row is the plain fields joined by the delimiter
character with the kind in uppercase display form; the code formats every
field — including the delimiter — with `{:?}` (Debug), so the delimiter
prints as `','`, the kind as its Debug name `Insert` (the uppercase Display
impl is never used by `print_statements`), and path/table print quoted. -/
theorem c4_print_format_bug :
    print_row_hidden ',' (("f.sql").toList) stmt_ins =
      ("\"f.sql\"','0','1','Insert','\"t_pick_detail\"").toList
    ∧ spec_row_hidden ',' (("f.sql").toList) stmt_ins =
        ("f.sql,0,1,INSERT,t_pick_detail").toList
    ∧ print_row_hidden ',' (("f.sql").toList) stmt_ins ≠
        spec_row_hidden ',' (("f.sql").toList) stmt_ins := by
  refine ⟨by decide, by decide, by decide⟩

-- ============================================================================
-- Phase 1 is not conservative over Phase 2 (C2 counterexample)
-- ============================================================================

/-- C2 counterexample: for the clause `u:x@` and the file
`update x@ set c=1`, Phase 2 yields a matching statement, but the derived
table pattern `(x@)\b` does not match the file (no word boundary can follow
the non-word character `@`), so Phase 1 rejects a file Phase 2 accepts. -/
theorem c2_counterexample :
    find_statements 0 q_at file_at = .ok (some [stmt_at])
    ∧ stmt_at.table ∈ q_at.tables
    ∧ table_pattern_matches q_at file_at = false := by
  refine ⟨rfl, by decide, by decide⟩

-- ============================================================================
-- Phase-2 open failure aborts the run (C8 counterexample)
-- ============================================================================

/-- C8 counterexample: with one readable matching file and one unreadable
file, Phase 2 does not skip the unreadable file and continue — the
`File::open(..).unwrap()` panic aborts the whole run, losing even the
readable file's results. -/
theorem c8_counterexample :
    find_statements_io 0 q_upd (some file_upd_del) = .ok (some [stmt_upd])
    ∧ phase2 [q_upd] [(0, some file_upd_del), (1, none)] [] = .error .openFail := by
  refine ⟨rfl, rfl⟩

-- ============================================================================
-- Last-line statements are emitted (C10 counterexample)
-- ============================================================================

/-- C10 counterexample: a statement whose triggering keyword line is the very
last line of the file IS emitted (the accumulation loop performs one final
iteration past end of file), with `end` = one past the last line index. -/
theorem c10_counterexample :
    find_statements 0 q_upd file_upd_last = .ok (some [stmt_last])
    ∧ stmt_last.begin = file_upd_last.length - 1
    ∧ stmt_last.ends = file_upd_last.length := by
  refine ⟨rfl, by decide, by decide⟩

-- ============================================================================
-- Character-class lemmas
-- ============================================================================

theorem ws_char_not_word {c : Char} (h : ws_char c = true) : word_char c = false := by
  have hd : ((c = ' ' ∨ c = '\t') ∨ c = '\r') ∨ c = '\n' := by
    simpa [ws_char, Char.isWhitespace] using h
  rcases hd with ((h | h) | h) | h <;> subst h <;> decide

theorem word_char_ident {c : Char} (h : word_char c = true) : ident_char c = true := by
  simp only [word_char, Bool.or_eq_true] at h
  simp only [ident_char, Bool.or_eq_true]
  tauto

theorem ident_false_not_word {c : Char} (h : ident_char c = false) : word_char c = false := by
  cases hw : word_char c with
  | false => rfl
  | true => rw [word_char_ident hw] at h; cases h

-- ============================================================================
-- Scan completeness: a witnessed position makes the scan succeed
-- ============================================================================

theorem scan_any_complete (p : Option Char → List Char → Bool) :
    ∀ (pre : List Char) (prev : Option Char) (rest : List Char),
      p (last_ctx pre prev) rest = true → scan_any p prev (pre ++ rest) = true
  | [], prev, rest, h => by
    cases rest with
    | nil => simpa [scan_any, last_ctx] using h
    | cons c cs =>
      simp only [List.nil_append, scan_any, Bool.or_eq_true]
      exact Or.inl h
  | c :: pre, prev, rest, h => by
    have ih := scan_any_complete p pre (some c) rest h
    simp only [List.cons_append, scan_any, Bool.or_eq_true]
    exact Or.inr ih

theorem last_ctx_eq_some : ∀ {l : List Char} {prev : Option Char} {c : Char},
    last_ctx l prev = some c → c ∈ l ∨ prev = some c
  | [], _, _, h => Or.inr h
  | a :: l, _, c, h => by
    rcases @last_ctx_eq_some l (some a) c h with h' | h'
    · exact Or.inl (List.mem_cons_of_mem a h')
    · exact Or.inl (by injection h' with h''; exact h'' ▸ List.mem_cons_self a l)

-- ============================================================================
-- Keyword stripping and prefix lemmas
-- ============================================================================

theorem ci_strip_of_map_toLower : ∀ {w kw suf : List Char}, w.map Char.toLower = kw →
    ci_strip kw (w ++ suf) = some suf
  | [], _, suf, h => by subst h; rfl
  | c :: w, _, suf, h => by
    subst h
    simp only [List.map_cons, List.cons_append, ci_strip, if_pos rfl]
    exact ci_strip_of_map_toLower rfl

theorem ci_strip_append : ∀ {kw l rest : List Char}, ci_strip kw l = some rest →
    ∃ w, l = w ++ rest
  | [], l, rest, h => by
    simp only [ci_strip, Option.some.injEq] at h
    exact ⟨[], by rw [h, List.nil_append]⟩
  | k :: ks, [], rest, h => by simp [ci_strip] at h
  | k :: ks, c :: cs, rest, h => by
    by_cases hc : c.toLower = k
    · simp only [ci_strip, if_pos hc] at h
      obtain ⟨w, hw⟩ := ci_strip_append h
      exact ⟨c :: w, by rw [hw, List.cons_append]⟩
    · simp [ci_strip, hc] at h

theorem isPrefixOf_append_self : ∀ (t x : List Char), t.isPrefixOf (t ++ x) = true
  | [], x => by simp [List.isPrefixOf]
  | c :: t, x => by
    simp only [List.cons_append, List.isPrefixOf, Bool.and_eq_true, beq_iff_eq]
    exact ⟨trivial, isPrefixOf_append_self t x⟩

theorem head_dropWhile_not (p : Char → Bool) : ∀ (l : List Char) {c : Char},
    (l.dropWhile p).head? = some c → p c = false
  | [], c, h => by simp [List.dropWhile] at h
  | a :: l, c, h => by
    by_cases hp : p a
    · exact head_dropWhile_not p l (by simpa [List.dropWhile, hp] using h)
    · simp only [List.dropWhile, hp, Bool.false_eq_true, if_false, List.head?_cons,
        Option.some.injEq] at h
      subst h
      exact Bool.not_eq_true _ ▸ hp
  termination_by l => l.length

-- ============================================================================
-- Decomposition of `trim`, `trim_semis`, `trim_comment`, `clean_text`
-- ============================================================================

theorem dropWhile_eq_trim_append (l : List Char) :
    ∃ z, l.dropWhile ws_char = trim l ++ z ∧ ∀ c ∈ z, ws_char c = true := by
  refine ⟨((l.dropWhile ws_char).reverse.takeWhile ws_char).reverse, ?_, ?_⟩
  · conv_lhs => rw [← List.reverse_reverse (l.dropWhile ws_char)]
    rw [trim]
    conv_lhs => rw [← List.takeWhile_append_dropWhile (p := ws_char)
      (l := (l.dropWhile ws_char).reverse)]
    rw [List.reverse_append]
  · intro c hc
    rw [List.mem_reverse] at hc
    exact List.mem_takeWhile_imp hc

theorem raw_eq_ws_append_trim (l : List Char) :
    ∃ a z, l = a ++ trim l ++ z ∧ (∀ c ∈ a, ws_char c = true) ∧ ∀ c ∈ z, ws_char c = true := by
  obtain ⟨z, hz, hzw⟩ := dropWhile_eq_trim_append l
  refine ⟨l.takeWhile ws_char, z, ?_, fun c hc => List.mem_takeWhile_imp hc, hzw⟩
  conv_lhs => rw [← List.takeWhile_append_dropWhile (p := ws_char) (l := l)]
  rw [hz, List.append_assoc]

theorem trim_eq_semis_append (l : List Char) :
    ∃ a, trim l = a ++ trim_semis (trim l) ∧ ∀ c ∈ a, c = ';' := by
  refine ⟨(trim l).takeWhile (fun c => c = ';'), ?_, ?_⟩
  · rw [trim_semis]
    conv_lhs => rw [← List.takeWhile_append_dropWhile (p := fun c => c = ';') (l := trim l)]
  · intro c hc
    have := List.mem_takeWhile_imp hc
    simpa using this

theorem trim_comment_prefix : ∀ (l : List Char),
    ∃ r, l = trim_comment l ++ r ∧ (r = [] ∨ r.head? = some '-')
  | [] => ⟨[], rfl, Or.inl rfl⟩
  | c :: rest => by
    by_cases h : c = '-' && rest.head? == some '-'
    · refine ⟨c :: rest, ?_, Or.inr ?_⟩
      · simp [trim_comment, h]
      · simp only [Bool.and_eq_true, beq_iff_eq, decide_eq_true_eq] at h
        simp [h.1]
    · obtain ⟨r, hr, ho⟩ := trim_comment_prefix rest
      refine ⟨r, ?_, ho⟩
      simp only [trim_comment, h, Bool.false_eq_true, if_false, List.cons_append]
      rw [← hr]

-- ============================================================================
-- Occurrence transport lemmas
-- ============================================================================

theorem occursNI_to_NW {t l : List Char} (h : OccursNI t l) : OccursNW t l := by
  obtain ⟨pre, suf, hl, hs⟩ := h
  exact ⟨pre, suf, hl, fun c hc => ident_false_not_word (hs c hc)⟩

theorem occursNW_of_append_left {t a l' : List Char} (h : OccursNW t l') :
    OccursNW t (a ++ l') := by
  obtain ⟨pre, suf, hl, hs⟩ := h
  exact ⟨a ++ pre, suf, by rw [hl]; simp [List.append_assoc], hs⟩

theorem occursNW_append_r {t l r : List Char} (h : OccursNW t l)
    (hr : ∀ c, r.head? = some c → word_char c = false) : OccursNW t (l ++ r) := by
  obtain ⟨pre, suf, hl, hs⟩ := h
  refine ⟨pre, suf ++ r, by rw [hl]; simp [List.append_assoc], ?_⟩
  intro c hc
  cases suf with
  | nil => exact hr c (by simpa using hc)
  | cons a suf' =>
    simp only [List.cons_append, List.head?_cons, Option.some.injEq] at hc
    exact hc ▸ hs a rfl

theorem map_tab_of_ident : ∀ {u : List Char},
    (∀ c ∈ u.map tab_to_space, ident_char c = true) → u.map tab_to_space = u
  | [], _ => rfl
  | c :: u, h => by
    have hc : ident_char (tab_to_space c) = true :=
      h _ (by simp)
    have hcc : tab_to_space c = c := by
      by_cases ht : c = '\t'
      · subst ht; exact absurd hc (by decide)
      · simp [tab_to_space, ht]
    have hu : u.map tab_to_space = u :=
      map_tab_of_ident (fun d hd => h d (by simp [hd]))
    simp [hcc, hu]

theorem word_tab_false {c : Char} (h : word_char (tab_to_space c) = false) :
    word_char c = false := by
  by_cases ht : c = '\t'
  · subst ht; decide
  · simpa [tab_to_space, ht] using h

theorem occursNW_unmap_tab {t l : List Char} (hid : ∀ c ∈ t, ident_char c = true)
    (h : OccursNW t (l.map tab_to_space)) : OccursNW t l := by
  obtain ⟨pre, suf, hl, hs⟩ := h
  rw [List.append_assoc] at hl
  obtain ⟨l₁, l₂, hl12, hm1, hm2⟩ := List.map_eq_append_iff.mp hl
  obtain ⟨u, v, huv, hmu, hmv⟩ := List.map_eq_append_iff.mp hm2
  have hu : u = t := by
    have : ∀ c ∈ u.map tab_to_space, ident_char c = true := by
      rw [hmu]; exact hid
    rw [← map_tab_of_ident this, hmu]
  refine ⟨l₁, v, by rw [hl12, huv, hu, List.append_assoc], ?_⟩
  intro c hc
  have : (v.map tab_to_space).head? = some (tab_to_space c) := by
    rw [List.head?_map, hc]; rfl
  rw [hmv] at this
  exact word_tab_false (hs _ this)

theorem occursNI_strip_space {t pu : List Char} (hid : ∀ c ∈ t, ident_char c = true)
    (h : OccursNI t (pu ++ [' '])) : OccursNI t pu := by
  by_cases htn : t = []
  · subst htn; exact ⟨pu, [], by simp, by simp⟩
  · obtain ⟨pre, suf, hl, hs⟩ := h
    rcases List.eq_nil_or_concat suf with hsn | ⟨sl, sb, hsc⟩
    · subst hsn
      rw [List.append_nil] at hl
      rcases List.eq_nil_or_concat t with htn2 | ⟨tl, tb, htc⟩
      · exact absurd htn2 htn
      · rw [List.concat_eq_append] at htc
        rw [htc, ← List.append_assoc] at hl
        have hinj := List.append_inj' hl (by simp)
        have hb : tb = ' ' := by
          have h2 := hinj.2
          simpa using h2.symm
        have hmem : ident_char tb = true := hid tb (by rw [htc]; simp)
        rw [hb] at hmem
        exact absurd hmem (by decide)
    · rw [List.concat_eq_append] at hsc
      subst hsc
      rw [← List.append_assoc] at hl
      have hinj := List.append_inj' hl (by simp)
      refine ⟨pre, sl, hinj.1, ?_⟩
      intro c hc
      cases sl with
      | nil => simp at hc
      | cons a sl' =>
        apply hs c
        simpa using hc

-- ============================================================================
-- Splitting an occurrence across a concatenation
-- ============================================================================

theorem occ_split {A B pre T suf : List Char}
    (hid : ∀ c ∈ T, ident_char c = true)
    (hA : ∀ c, A.getLast? = some c → ident_char c = false)
    (h : A ++ B = pre ++ (T ++ suf)) :
    (∃ sufA, A = pre ++ T ++ sufA ∧ suf = sufA ++ B) ∨
    (∃ preB, pre = A ++ preB ∧ B = preB ++ (T ++ suf)) := by
  rcases List.append_eq_append_iff.mp h with ⟨a', ha1, ha2⟩ | ⟨c', hc1, hc2⟩
  · exact Or.inr ⟨a', ha1, ha2⟩
  · rcases List.append_eq_append_iff.mp hc2 with ⟨x, hx1, hx2⟩ | ⟨y, hy1, hy2⟩
    · refine Or.inl ⟨x, ?_, hx2⟩
      rw [hc1, hx1, List.append_assoc]
    · rcases List.eq_nil_or_concat c' with hcn | ⟨cl, cb, hcc⟩
      · subst hcn
        rw [List.append_nil] at hc1
        refine Or.inr ⟨[], by rw [hc1, List.append_nil], ?_⟩
        rw [List.nil_append, hy2, hy1]
        simp
      · cases y with
        | nil =>
          rw [List.append_nil] at hy1
          refine Or.inl ⟨[], ?_, ?_⟩
          · rw [hc1, hy1, List.append_nil]
          · simp [hy2]
        | cons y0 ys =>
          exfalso
          rw [List.concat_eq_append] at hcc
          have hlast : A.getLast? = some cb := by
            rw [hc1, hcc, ← List.append_assoc]
            exact List.getLast?_concat _
          have hcbT : cb ∈ T := by
            rw [hy1, hcc]
            exact List.mem_append_left _ (by simp)
          have h1 := hA cb hlast
          have h2 := hid cb hcbT
          rw [h1] at h2
          cases h2

theorem occ_flatten : ∀ (us : List (List Char)) {pre T suf : List Char},
    (∀ c ∈ T, ident_char c = true) →
    (∀ u ∈ us, ∃ pu, u = pu ++ [' ']) →
    us.flatten = pre ++ (T ++ suf) →
    (∀ c, suf.head? = some c → ident_char c = false) →
    T ≠ [] →
    ∃ u ∈ us, OccursNI T u
  | [], pre, T, suf, _, _, hfl, _, hT => by
    simp only [List.flatten_nil] at hfl
    have hlen := congrArg List.length hfl
    simp only [List.length_nil, List.length_append] at hlen
    have hT0 : T.length = 0 := by omega
    exact absurd (List.eq_nil_of_length_eq_zero hT0) hT
  | u :: us, pre, T, suf, hid, hu, hfl, hs, hT => by
    rw [List.flatten_cons] at hfl
    obtain ⟨pu, hpu⟩ := hu u (by simp)
    have hA : ∀ c, u.getLast? = some c → ident_char c = false := by
      intro c hc
      rw [hpu, List.getLast?_concat] at hc
      injection hc with hc
      subst hc
      decide
    rcases occ_split hid hA hfl with ⟨sufA, hA1, hA2⟩ | ⟨preB, hB1, hB2⟩
    · refine ⟨u, by simp, pre, sufA, hA1, ?_⟩
      intro c hc
      apply hs c
      rw [hA2]
      cases sufA with
      | nil => simp at hc
      | cons a s' => simpa using hc
    · obtain ⟨u', hu', ho⟩ := occ_flatten us hid
        (fun w hw => hu w (List.mem_cons_of_mem u hw)) hB2 hs hT
      exact ⟨u', List.mem_cons_of_mem u hu', ho⟩

-- ============================================================================
-- Shape of a successful capture
-- ============================================================================

theorem capture_at_shape {kw : List Char} : ∀ {l T : List Char}, capture_at kw l = some T →
    ∃ pre suf, l = pre ++ (T ++ suf) ∧ T ≠ [] ∧ (∀ c ∈ T, ident_char c = true) ∧
      (∀ c, suf.head? = some c → ident_char c = false) := by
  intro l T h
  unfold capture_at at h
  cases hstrip : ci_strip kw l with
  | none => rw [hstrip] at h; exact Option.noConfusion h
  | some rest =>
    simp only [hstrip] at h
    by_cases hws : (rest.takeWhile ws_char).isEmpty
    · simp only [if_pos hws] at h
      exact Option.noConfusion h
    · simp only [if_neg hws] at h
      by_cases htok : ((rest.dropWhile ws_char).takeWhile ident_char).isEmpty
      · simp only [if_pos htok] at h
        exact Option.noConfusion h
      · simp only [if_neg htok] at h
        injection h with h
        subst h
        obtain ⟨w, hw⟩ := ci_strip_append hstrip
        refine ⟨w ++ rest.takeWhile ws_char, (rest.dropWhile ws_char).dropWhile ident_char,
          ?_, ?_, ?_, ?_⟩
        · rw [hw, List.append_assoc]
          congr 1
          conv_lhs => rw [← List.takeWhile_append_dropWhile (p := ws_char) (l := rest)]
          congr 1
          conv_lhs => rw [← List.takeWhile_append_dropWhile (p := ident_char)
            (l := rest.dropWhile ws_char)]
        · intro hnil
          rw [hnil] at htok
          exact htok rfl
        · intro c hc
          exact List.mem_takeWhile_imp hc
        · intro c hc
          exact head_dropWhile_not ident_char _ hc

theorem find_capture_shape {kw : List Char} : ∀ {prev : Option Char} {l T : List Char},
    find_capture kw prev l = some T →
    ∃ pre suf, l = pre ++ (T ++ suf) ∧ T ≠ [] ∧ (∀ c ∈ T, ident_char c = true) ∧
      (∀ c, suf.head? = some c → ident_char c = false)
  | prev, [], T, h => by simp [find_capture] at h
  | prev, c :: cs, T, h => by
    rw [find_capture] at h
    cases hcap : (if is_word_opt prev then none else capture_at kw (c :: cs)) with
    | some t =>
      rw [hcap] at h
      injection h with h
      subst h
      by_cases hw : is_word_opt prev
      · rw [if_pos hw] at hcap; cases hcap
      · rw [if_neg hw] at hcap
        exact capture_at_shape hcap
    | none =>
      rw [hcap] at h
      obtain ⟨pre, suf, hl, hT, hid, hs⟩ := @find_capture_shape kw (some c) cs T h
      exact ⟨c :: pre, suf, by rw [hl]; rfl, hT, hid, hs⟩

theorem parse_table_some_capture {st : StatementType} {text T : List Char}
    (h : parse_table st text = some T) :
    ∃ kw, find_capture kw none text = some T := by
  unfold parse_table at h
  cases st <;> simp only at h <;>
    [cases hf : find_capture (("from").toList) none text;
     cases hf : find_capture (("into").toList) none text;
     cases hf : find_capture (("from").toList) none text;
     cases hf : find_capture (("from").toList) none text;
     cases hf : find_capture (("merge").toList) none text] <;>
    rw [hf] at h
  case Select.none => cases h
  case Select.some => exact ⟨_, by injection h with h; rw [hf, h]⟩
  case Insert.none => cases h
  case Insert.some => exact ⟨_, by injection h with h; rw [hf, h]⟩
  case Update.none => exact ⟨_, h⟩
  case Update.some => exact ⟨_, by injection h with h; rw [hf, h]⟩
  case Delete.none => exact ⟨_, h⟩
  case Delete.some => exact ⟨_, by injection h with h; rw [hf, h]⟩
  case Merge.none => cases h
  case Merge.some => exact ⟨_, by injection h with h; rw [hf, h]⟩

-- ============================================================================
-- From occurrences to Phase-1 line matches
-- ============================================================================

theorem line_has_table_of_occursNW {t l : List Char} (ht : t ≠ [])
    (hlast : ∀ c, t.getLast? = some c → word_char c = true)
    (h : OccursNW t l) : line_has_table t l = true := by
  obtain ⟨pre, suf, hl, hs⟩ := h
  show scan_any (table_at t) none l = true
  rw [hl, List.append_assoc]
  apply scan_any_complete
  simp only [table_at, isPrefixOf_append_self, Bool.true_and, List.drop_left]
  cases hgl : t.getLast? with
  | none =>
    rw [List.getLast?_eq_none_iff] at hgl
    exact absurd hgl ht
  | some c =>
    have hc := hlast c hgl
    cases suf with
    | nil => simp [is_word_opt, hc]
    | cons a s' =>
      have ha := hs a rfl
      simp [is_word_opt, hc, ha]

theorem try_from_string_some {s : List Char} {st : StatementType}
    (h : StatementType.try_from_string s = some st) : s = StatementType.kw_of st := by
  unfold StatementType.try_from_string at h
  split_ifs at h with h1 h2 h3 h4 h5
  · injection h with h; subst h; exact h1
  · injection h with h; subst h; exact h2
  · injection h with h; subst h; exact h3
  · injection h with h; subst h; exact h4
  · injection h with h; subst h; exact h5

theorem first_word_decomp (l : List Char) :
    ∃ a b, l = a ++ (first_word l ++ b) ∧ (∀ c ∈ a, ws_char c = true) ∧
      (∀ c, b.head? = some c → ws_char c = true) := by
  refine ⟨l.takeWhile ws_char, (l.dropWhile ws_char).dropWhile (fun c => !ws_char c),
    ?_, ?_, ?_⟩
  · rw [first_word]
    conv_lhs => rw [← List.takeWhile_append_dropWhile (p := ws_char) (l := l)]
    congr 1
    conv_lhs => rw [← List.takeWhile_append_dropWhile (p := fun c => !ws_char c)
      (l := l.dropWhile ws_char)]
  · exact fun c hc => List.mem_takeWhile_imp hc
  · intro c hc
    have := head_dropWhile_not (fun c => !ws_char c) _ hc
    simpa using this

theorem kw_of_ne_nil (st : StatementType) : StatementType.kw_of st ≠ [] := by
  cases st <;> decide

theorem line_has_kw_of_trigger {st : StatementType} {r : List Char}
    (h : try_statement_type_from_line (trim_semis (trim r)) = some st) :
    line_has_kw (StatementType.kw_of st) r = true := by
  unfold try_statement_type_from_line at h
  have hw := try_from_string_some h
  obtain ⟨a, b, hl1, ha, hb⟩ := first_word_decomp (trim_semis (trim r))
  obtain ⟨wsH, z, hr, hwsH, hz⟩ := raw_eq_ws_append_trim r
  obtain ⟨semis, hsem, hsemc⟩ := trim_eq_semis_append r
  have hr2 : r = (wsH ++ (semis ++ a)) ++
      (first_word (trim_semis (trim r)) ++ (b ++ z)) := by
    conv_lhs => rw [hr, hsem, hl1]
    simp [List.append_assoc]
  show scan_any (kw_at (StatementType.kw_of st)) none r = true
  conv_lhs => rw [hr2]
  apply scan_any_complete
  simp only [kw_at, Bool.and_eq_true]
  constructor
  · cases hctx : last_ctx (wsH ++ (semis ++ a)) none with
    | none => rfl
    | some c =>
      rcases last_ctx_eq_some hctx with hmem | hn
      · have hcw : word_char c = false := by
          rcases List.mem_append.mp hmem with hm | hm
          · exact ws_char_not_word (hwsH c hm)
          · rcases List.mem_append.mp hm with hm' | hm'
            · rw [hsemc c hm']; decide
            · exact ws_char_not_word (ha c hm')
        simp [is_word_opt, hcw]
      · exact Option.noConfusion hn
  · rw [ci_strip_of_map_toLower hw]
    cases b with
    | nil =>
      cases z with
      | nil => rfl
      | cons c z' =>
        have := hz c (by simp)
        simp [is_word_opt, ws_char_not_word this]
    | cons c b' =>
      have := hb c rfl
      simp [is_word_opt, ws_char_not_word this]

-- ============================================================================
-- Transport: an occurrence in a cleaned piece reaches the raw line
-- ============================================================================

theorem occursNW_raw_of_clean {T X : List Char} (hid : ∀ c ∈ T, ident_char c = true)
    (h : OccursNI T (clean_text X)) : OccursNW T X := by
  obtain ⟨r, hr, ho⟩ := trim_comment_prefix (X.map tab_to_space)
  have h1 : OccursNW T (X.map tab_to_space) := by
    rw [hr]
    apply occursNW_append_r (occursNI_to_NW h)
    intro c hc
    rcases ho with ho | ho
    · rw [ho] at hc; exact Option.noConfusion hc
    · rw [ho] at hc; injection hc with hc; subst hc; decide
  exact occursNW_unmap_tab hid h1

theorem occursNW_of_trim_semis {T l : List Char} (h : OccursNW T (trim_semis l)) :
    OccursNW T l := by
  unfold trim_semis at h
  have h2 := occursNW_of_append_left (a := l.takeWhile (fun c => c = ';')) h
  rwa [List.takeWhile_append_dropWhile] at h2

theorem occursNW_of_trim {T l : List Char} (h : OccursNW T (trim l)) :
    OccursNW T l := by
  obtain ⟨z, hz, hzw⟩ := dropWhile_eq_trim_append l
  have h1 : OccursNW T (l.dropWhile ws_char) := by
    rw [hz]
    apply occursNW_append_r h
    intro c hc
    cases z with
    | nil => exact Option.noConfusion hc
    | cons a z' =>
      injection hc with hc
      subst hc
      exact ws_char_not_word (hzw _ (by simp))
  have h2 := occursNW_of_append_left (a := l.takeWhile ws_char) h1
  rwa [List.takeWhile_append_dropWhile] at h2

-- ============================================================================
-- Monotonicity of the scanner invariants in the remaining-line list
-- ============================================================================

theorem extFrom_cons {r : List Char} {rs : List (List Char)} {ext : List Char}
    (h : ExtFrom rs ext) : ExtFrom (r :: rs) ext := by
  obtain ⟨ps, hp, he⟩ := h
  refine ⟨ps, ?_, he⟩
  intro p hm
  obtain ⟨l, hl, hpl⟩ := hp p hm
  exact ⟨l, List.mem_cons_of_mem r hl, hpl⟩

theorem triggeredIn_cons {r : List Char} {rs : List (List Char)} {s : Statement}
    (h : TriggeredIn rs s) : TriggeredIn (r :: rs) s := by
  obtain ⟨r', hr', htr, ext, htext, hext⟩ := h
  exact ⟨r', List.mem_cons_of_mem r hr', htr, ext, htext, extFrom_cons hext⟩

theorem mk_stmt_some {q : SearchQuery} {fp : Nat} {st : StatementType} {b e : Nat}
    {text : List Char} {s : Statement} (h : mk_stmt q fp st b e text = some s) :
    s.file_path = fp ∧ s.statement_type = st ∧ s.begin = b ∧ s.ends = e ∧
      s.text = text ∧ parse_table st text = some s.table ∧ s.table ∈ q.tables := by
  unfold mk_stmt at h
  cases hp : parse_table st text with
  | none =>
    simp only [hp] at h
    exact Option.noConfusion h
  | some tbl =>
    simp only [hp] at h
    by_cases hm : tbl ∈ q.tables
    · rw [if_pos hm] at h
      injection h with h
      subst h
      exact ⟨rfl, rfl, rfl, rfl, rfl, rfl, hm⟩
    · rw [if_neg hm] at h
      exact Option.noConfusion h

-- ============================================================================
-- The scanner specification: every emitted statement was triggered on a
-- line of the file, matched its clause, and its text is built from cleaned
-- pieces of the file's lines
-- ============================================================================

theorem run_spec (q : SearchQuery) (fp : Nat) :
    ∀ (rest : List (List Char)) (mode : Mode) (level i : Nat) (out : List Statement),
      (∀ st b text, mode = Mode.accum st b text → st ∈ q.statement_types ∧ b + 1 ≤ i) →
      run q fp mode level i rest = .ok out →
      ∀ s ∈ out, StmtOk q fp s ∧
        (TriggeredIn rest s ∨
          ∃ st b text, mode = Mode.accum st b text ∧ s.statement_type = st ∧
            s.begin = b ∧ ∃ ext, s.text = text ++ ext ∧ ExtFrom rest ext) := by
  intro rest
  induction rest with
  | nil =>
    intro mode level i out hmode hrun s hs
    cases mode with
    | seeking =>
      simp only [run] at hrun
      injection hrun with hrun
      subst hrun
      exact absurd hs (List.not_mem_nil s)
    | accum st b text =>
      simp only [run] at hrun
      by_cases hl : 0 < level
      · rw [if_pos hl] at hrun; exact Except.noConfusion hrun
      · rw [if_neg hl] at hrun
        injection hrun with hrun
        subst hrun
        rw [Option.mem_toList] at hs
        obtain ⟨h1, h2, h3, h4, h5, h6, h7⟩ := mk_stmt_some hs
        obtain ⟨hst, hbi⟩ := hmode st b text rfl
        refine ⟨⟨h1, by rw [h2, h5]; exact h6, h7, by rw [h2]; exact hst,
          by rw [h3, h4]; exact hbi⟩, Or.inr ⟨st, b, text, rfl, h2, h3, [], ?_, [], by simp, rfl⟩⟩
        rw [h5, List.append_nil]
  | cons r rs ih =>
    intro mode level i out hmode hrun s hs
    have hseek : ∀ (lv : Nat) (h' : run q fp Mode.seeking lv (i + 1) rs = .ok out),
        StmtOk q fp s ∧
          (TriggeredIn (r :: rs) s ∨
            ∃ st b text, mode = Mode.accum st b text ∧ s.statement_type = st ∧
              s.begin = b ∧ ∃ ext, s.text = text ++ ext ∧ ExtFrom (r :: rs) ext) := by
      intro lv h'
      have hres := ih Mode.seeking lv (i + 1) out
        (fun st b text h => Mode.noConfusion h) h' s hs
      refine ⟨hres.1, ?_⟩
      rcases hres.2 with h | ⟨st, b, text, habs, _⟩
      · exact Or.inl (triggeredIn_cons h)
      · exact Mode.noConfusion habs
    cases mode with
    | seeking =>
      simp only [run] at hrun
      by_cases h1 : trim_semis (trim r) = []
      · rw [if_pos h1] at hrun
        exact hseek level hrun
      · rw [if_neg h1] at hrun
        by_cases h2 : line_comment (trim_semis (trim r)) = true
        · rw [if_pos h2] at hrun
          exact hseek level hrun
        · rw [if_neg h2] at hrun
          cases hbl : bump_level (trim_semis (trim r)) level with
          | error e =>
            simp only [hbl] at hrun
            exact Except.noConfusion hrun
          | ok lv =>
            simp only [hbl] at hrun
            by_cases h3 : 0 < lv
            · rw [if_pos h3] at hrun
              exact hseek lv hrun
            · rw [if_neg h3] at hrun
              cases htr : try_statement_type_from_line (trim_semis (trim r)) with
              | none =>
                simp only [htr] at hrun
                exact hseek lv hrun
              | some st =>
                simp only [htr] at hrun
                by_cases h4 : st ∈ q.statement_types
                · rw [if_pos h4] at hrun
                  have hres := ih (Mode.accum st i (clean_text (trim_semis (trim r)) ++ [' ']))
                    lv (i + 1) out
                    (fun st' b' t' heq => by
                      injection heq with e1 e2 e3
                      exact ⟨e1 ▸ h4, e2 ▸ Nat.le_refl (i + 1)⟩) hrun s hs
                  refine ⟨hres.1, ?_⟩
                  rcases hres.2 with h | ⟨st', b', text', heq, hst2, hb2, ext, htext2, hext2⟩
                  · exact Or.inl (triggeredIn_cons h)
                  · injection heq with e1 e2 e3
                    refine Or.inl ⟨r, List.mem_cons_self r rs, ?_, ext, ?_, extFrom_cons hext2⟩
                    · rw [hst2, ← e1]
                      exact htr
                    · rw [htext2, ← e3]
                · rw [if_neg h4] at hrun
                  exact hseek lv hrun
    | accum st b text =>
      obtain ⟨hst, hbi⟩ := hmode st b text rfl
      simp only [run] at hrun
      by_cases h2 : line_comment (trim r) = true
      · rw [if_pos h2] at hrun
        have hres := ih (Mode.accum st b text) level (i + 1) out
          (fun st' b' t' heq => by
            injection heq with e1 e2 e3
            exact ⟨e1 ▸ hst, e2 ▸ Nat.le_succ_of_le hbi⟩) hrun s hs
        refine ⟨hres.1, ?_⟩
        rcases hres.2 with h | ⟨st', b', text', heq, hst2, hb2, ext, htext2, hext2⟩
        · exact Or.inl (triggeredIn_cons h)
        · exact Or.inr ⟨st', b', text', heq, hst2, hb2, ext, htext2, extFrom_cons hext2⟩
      · rw [if_neg h2] at hrun
        cases hbl : bump_level (trim r) level with
        | error e =>
          simp only [hbl] at hrun
          exact Except.noConfusion hrun
        | ok lv =>
          simp only [hbl] at hrun
          by_cases h3 : 0 < lv
          · rw [if_pos h3] at hrun
            have hres := ih (Mode.accum st b text) lv (i + 1) out
              (fun st' b' t' heq => by
                injection heq with e1 e2 e3
                exact ⟨e1 ▸ hst, e2 ▸ Nat.le_succ_of_le hbi⟩) hrun s hs
            refine ⟨hres.1, ?_⟩
            rcases hres.2 with h | ⟨st', b', text', heq, hst2, hb2, ext, htext2, hext2⟩
            · exact Or.inl (triggeredIn_cons h)
            · exact Or.inr ⟨st', b', text', heq, hst2, hb2, ext, htext2, extFrom_cons hext2⟩
          · rw [if_neg h3] at hrun
            by_cases h5 : trim r ≠ [] ∧ (trim r).head? ≠ some ';'
            · rw [if_pos h5] at hrun
              have hres := ih (Mode.accum st b (text ++ clean_text (trim r) ++ [' ']))
                lv (i + 1) out
                (fun st' b' t' heq => by
                  injection heq with e1 e2 e3
                  exact ⟨e1 ▸ hst, e2 ▸ Nat.le_succ_of_le hbi⟩) hrun s hs
              refine ⟨hres.1, ?_⟩
              rcases hres.2 with h | ⟨st', b', text', heq, hst2, hb2, ext, htext2, hext2⟩
              · exact Or.inl (triggeredIn_cons h)
              · injection heq with e1 e2 e3
                refine Or.inr ⟨st, b, text, rfl, by rw [hst2, ← e1], by rw [hb2, ← e2],
                  clean_text (trim r) ++ [' '] ++ ext, ?_, ?_⟩
                · rw [htext2, ← e3]
                  simp [List.append_assoc]
                · obtain ⟨ps, hp, he⟩ := hext2
                  refine ⟨(clean_text (trim r) ++ [' ']) :: ps, ?_, ?_⟩
                  · intro p hm
                    rcases List.mem_cons.mp hm with hm | hm
                    · exact ⟨r, List.mem_cons_self r rs, hm⟩
                    · obtain ⟨l, hl, hpl⟩ := hp p hm
                      exact ⟨l, List.mem_cons_of_mem r hl, hpl⟩
                  · rw [List.flatten_cons, ← he, List.append_assoc]
            · rw [if_neg h5] at hrun
              cases hrec : run q fp Mode.seeking lv (i + 1) rs with
              | error e =>
                simp only [hrec] at hrun
                exact Except.noConfusion hrun
              | ok tail =>
                simp only [hrec] at hrun
                injection hrun with hrun
                subst hrun
                rcases List.mem_append.mp hs with hsm | hsm
                · rw [Option.mem_toList] at hsm
                  obtain ⟨f1, f2, f3, f4, f5, f6, f7⟩ := mk_stmt_some hsm
                  refine ⟨⟨f1, by rw [f2, f5]; exact f6, f7, by rw [f2]; exact hst,
                    by rw [f3, f4]; exact hbi⟩,
                    Or.inr ⟨st, b, text, rfl, f2, f3, [], ?_, [], by simp, rfl⟩⟩
                  rw [f5, List.append_nil]
                · have hres := ih Mode.seeking lv (i + 1) tail
                    (fun st' b' t' heq => Mode.noConfusion heq) hrec s hsm
                  refine ⟨hres.1, ?_⟩
                  rcases hres.2 with h | ⟨st', b', text', habs, _⟩
                  · exact Or.inl (triggeredIn_cons h)
                  · exact Mode.noConfusion habs

-- ============================================================================
-- A matched statement makes both Phase-1 patterns match
-- ============================================================================

theorem statement_patterns_match {q : SearchQuery} {fp : Nat} {lines : List (List Char)}
    {s : Statement}
    (htab : ∀ t ∈ q.tables, ∀ c, t.getLast? = some c → word_char c = true)
    (hok : StmtOk q fp s) (htr : TriggeredIn lines s) :
    stmt_pattern_matches q lines = true ∧ table_pattern_matches q lines = true := by
  obtain ⟨hfp, hparse, htabmem, hstmem, hbe⟩ := hok
  obtain ⟨r, hr, htrig, ext, htext, hext⟩ := htr
  constructor
  · have hkw := line_has_kw_of_trigger htrig
    have hne : q.statement_types.isEmpty = false := by
      cases hq : q.statement_types with
      | nil => rw [hq] at hstmem; exact absurd hstmem (List.not_mem_nil _)
      | cons a l => rfl
    simp only [stmt_pattern_matches, hne, Bool.false_eq_true, if_false, List.any_eq_true]
    exact ⟨r, hr, s.statement_type, hstmem, hkw⟩
  · obtain ⟨kw, hcap⟩ := parse_table_some_capture hparse
    obtain ⟨pre, suf, hshape, hT, hid, hsuf⟩ := find_capture_shape hcap
    obtain ⟨ps, hp, he⟩ := hext
    have hu : ∀ u ∈ (clean_text (trim_semis (trim r)) ++ [' ']) :: ps,
        ∃ pu, u = pu ++ [' '] := by
      intro u hm
      rcases List.mem_cons.mp hm with hm | hm
      · exact ⟨clean_text (trim_semis (trim r)), hm⟩
      · obtain ⟨l, _, hpl⟩ := hp u hm
        exact ⟨clean_text (trim l), hpl⟩
    have hflat : ((clean_text (trim_semis (trim r)) ++ [' ']) :: ps).flatten =
        pre ++ (s.table ++ suf) := by
      rw [List.flatten_cons, ← he, ← htext, hshape]
    obtain ⟨u, hum, hoccu⟩ := occ_flatten _ hid hu hflat hsuf hT
    have hraw : ∃ l ∈ lines, OccursNW s.table l := by
      rcases List.mem_cons.mp hum with hum | hum
      · subst hum
        have h1 := occursNI_strip_space hid hoccu
        have h2 := occursNW_raw_of_clean hid h1
        exact ⟨r, hr, occursNW_of_trim (occursNW_of_trim_semis h2)⟩
      · obtain ⟨l, hl, hpl⟩ := hp u hum
        rw [hpl] at hoccu
        have h1 := occursNI_strip_space hid hoccu
        have h2 := occursNW_raw_of_clean hid h1
        exact ⟨l, hl, occursNW_of_trim h2⟩
    obtain ⟨l, hl, hocc⟩ := hraw
    have hht := line_has_table_of_occursNW hT (htab s.table htabmem) hocc
    simp only [table_pattern_matches, List.any_eq_true]
    exact ⟨l, hl, s.table, htabmem, hht⟩

-- ============================================================================
-- Subset and error-propagation lemmas for the two phases
-- ============================================================================

theorem phase1_subset (qs : List SearchQuery) (files : List FileEntry) :
    ∀ f ∈ phase1 qs files, f ∈ files := by
  intro f hf
  exact (List.mem_filter.mp hf).1

theorem phase2_clause_subset (q : SearchQuery) :
    ∀ (files keep : List FileEntry) (st : List Statement),
      phase2_clause q files = .ok (keep, st) → ∀ f ∈ keep, f ∈ files := by
  intro files
  induction files with
  | nil =>
    intro keep st h f hf
    simp only [phase2_clause, Except.ok.injEq, Prod.mk.injEq] at h
    rw [← h.1] at hf
    exact absurd hf (List.not_mem_nil f)
  | cons g fs ih =>
    intro keep st h f hf
    simp only [phase2_clause] at h
    cases hio : find_statements_io g.1 q g.2 with
    | error e =>
      simp only [hio] at h
      exact Except.noConfusion h
    | ok r =>
      simp only [hio] at h
      cases hrec : phase2_clause q fs with
      | error e =>
        simp only [hrec] at h
        exact Except.noConfusion h
      | ok kp =>
        obtain ⟨kp1, kp2⟩ := kp
        simp only [hrec] at h
        cases r with
        | some found =>
          simp only [Except.ok.injEq, Prod.mk.injEq] at h
          rw [← h.1] at hf
          exact List.mem_cons_of_mem g (ih kp1 kp2 hrec f hf)
        | none =>
          simp only [Except.ok.injEq, Prod.mk.injEq] at h
          rw [← h.1] at hf
          rcases List.mem_cons.mp hf with hf | hf
          · exact hf ▸ List.mem_cons_self g fs
          · exact List.mem_cons_of_mem g (ih kp1 kp2 hrec f hf)

theorem phase2_subset : ∀ (qs : List SearchQuery) (files : List FileEntry)
    (init : List Statement) (outF : List FileEntry) (outS : List Statement),
    phase2 qs files init = .ok (outF, outS) → ∀ f ∈ outF, f ∈ files
  | [], files, init, outF, outS, h, f, hf => by
    simp only [phase2, Except.ok.injEq, Prod.mk.injEq] at h
    rw [h.1]
    exact hf
  | q :: qs, files, init, outF, outS, h, f, hf => by
    simp only [phase2] at h
    cases hcl : phase2_clause q files with
    | error e =>
      simp only [hcl] at h
      exact Except.noConfusion h
    | ok p =>
      obtain ⟨files', st'⟩ := p
      simp only [hcl] at h
      exact phase2_clause_subset q files files' st' hcl f
        (phase2_subset qs files' (init ++ st') outF outS h f hf)

theorem phase2_clause_error_of_unreadable (q : SearchQuery) :
    ∀ (files : List FileEntry) (f : FileEntry), f ∈ files → f.2 = none →
      ∃ e, phase2_clause q files = .error e := by
  intro files
  induction files with
  | nil =>
    intro f hf _
    exact absurd hf (List.not_mem_nil f)
  | cons g fs ih =>
    intro f hf hnone
    rcases List.mem_cons.mp hf with hf | hf
    · subst hf
      refine ⟨.openFail, ?_⟩
      simp only [phase2_clause, hnone]
      rfl
    · cases hio : find_statements_io g.1 q g.2 with
      | error e =>
        refine ⟨e, ?_⟩
        simp only [phase2_clause, hio]
      | ok r =>
        obtain ⟨e, he⟩ := ih f hf hnone
        refine ⟨e, ?_⟩
        simp only [phase2_clause, hio, he]

theorem phase2_error_of_unreadable (q : SearchQuery) (qs : List SearchQuery)
    (files : List FileEntry) (init : List Statement) (f : FileEntry)
    (hf : f ∈ files) (hnone : f.2 = none) :
    ∃ e, phase2 (q :: qs) files init = .error e := by
  obtain ⟨e, he⟩ := phase2_clause_error_of_unreadable q files f hf hnone
  refine ⟨e, ?_⟩
  simp only [phase2, he]

-- ============================================================================
-- C2 (amended), C10 (amended), C8 (amended)
-- ============================================================================

/-- C2 amended: provided every table name of a clause ends in a word
character (alphanumeric or underscore — the counterexample shows the claim
fails for tables ending in `@` or `#`), Phase 1 never rejects a file Phase 2
would accept: a file on which `find_statements` yields statements satisfies
both of the clause's derived whole-file patterns.  Unconditionally, the file
set surviving Phase 2 is a subset of the file set surviving Phase 1, which is
a subset of the input file set. -/
theorem c2_phase1_conservative_amended :
    (∀ (q : SearchQuery) (fp : Nat) (lines : List (List Char)) (stmts : List Statement),
      (∀ t ∈ q.tables, t.getLast?.all word_char = true) →
      find_statements fp q lines = .ok (some stmts) →
      stmt_pattern_matches q lines = true ∧ table_pattern_matches q lines = true)
    ∧ (∀ (qs : List SearchQuery) (files : List FileEntry), ∀ f ∈ phase1 qs files, f ∈ files)
    ∧ (∀ (qs : List SearchQuery) (files : List FileEntry) (init : List Statement)
        (outF : List FileEntry) (outS : List Statement),
        phase2 qs files init = .ok (outF, outS) → ∀ f ∈ outF, f ∈ files) := by
  refine ⟨?_, phase1_subset, phase2_subset⟩
  intro q fp lines stmts htab hfind
  unfold find_statements at hfind
  cases hr : run q fp .seeking 0 0 lines with
  | error e => rw [hr] at hfind; exact Except.noConfusion hfind
  | ok out =>
    rw [hr] at hfind
    simp only [Except.map] at hfind
    injection hfind with hfind
    by_cases ho : out = []
    · rw [if_pos ho] at hfind; exact Option.noConfusion hfind
    · rw [if_neg ho] at hfind
      obtain ⟨s, hs⟩ := List.exists_mem_of_ne_nil out ho
      have hres := run_spec q fp lines .seeking 0 0 out
        (fun st b text h => Mode.noConfusion h) hr s hs
      rcases hres.2 with htr | ⟨st, b, text, habs, _⟩
      · refine statement_patterns_match ?_ hres.1 htr
        intro t htm c hc
        have hall := htab t htm
        rw [hc] at hall
        simpa [Option.all] using hall
      · exact Mode.noConfusion habs

/-- C2 amended, witness: the clause `u:t_pick_detail` (table ends in a word
character) on a file Phase 2 accepts. -/
theorem c2_amended_witness :
    stmt_pattern_matches q_upd file_upd_del = true ∧
      table_pattern_matches q_upd file_upd_del = true :=
  c2_phase1_conservative_amended.1 q_upd 0 file_upd_del [stmt_upd] (by decide) rfl

/-- C10 amended: every Statement emitted by `find_statements` has
`end >= begin + 1` (the accumulation loop always reads at least one more
line — possibly the phantom end-of-file read — before emitting); the claim's
second half is refuted by `c10_counterexample`: a statement triggered on the
file's last line IS emitted. -/
theorem c10_end_gt_begin_amended (fp : Nat) (q : SearchQuery) (lines : List (List Char))
    (stmts : List Statement) (h : find_statements fp q lines = .ok (some stmts)) :
    ∀ s ∈ stmts, s.begin + 1 ≤ s.ends := by
  intro s hs
  unfold find_statements at h
  cases hr : run q fp .seeking 0 0 lines with
  | error e => rw [hr] at h; exact Except.noConfusion h
  | ok out =>
    rw [hr] at h
    simp only [Except.map] at h
    injection h with h
    by_cases ho : out = []
    · rw [if_pos ho] at h; exact Option.noConfusion h
    · rw [if_neg ho] at h
      injection h with h
      subst h
      exact (run_spec q fp lines .seeking 0 0 out
        (fun st b text hm => Mode.noConfusion hm) hr s hs).1.2.2.2.2

/-- C10 amended, witness: the single-line UPDATE file. -/
theorem c10_amended_witness : stmt_last.begin + 1 ≤ stmt_last.ends :=
  c10_end_gt_begin_amended 0 q_upd file_upd_last [stmt_last] rfl stmt_last
    (List.mem_singleton.mpr rfl)

/-- C8 amended: a Phase-1 search failure is treated as a non-match — the
failed file is excluded from the surviving set (whenever at least one clause
is supplied) while every other matching file still survives; but in Phase 2 a
file-open failure does NOT skip the file: the whole run aborts
(`File::open(..).unwrap()`), as `c8_counterexample` shows concretely. -/
theorem c8_error_handling_amended :
    (∀ q : SearchQuery, file_is_match q none = false)
    ∧ (∀ (qs : List SearchQuery) (files : List FileEntry) (f : FileEntry), f ∈ files →
        (qs.all fun q => file_is_match q f.2) = true → f ∈ phase1 qs files)
    ∧ (∀ (qs : List SearchQuery) (files : List FileEntry) (f : FileEntry),
        f ∈ phase1 qs files → f.2 = none → qs = [])
    ∧ (∀ (q : SearchQuery) (qs : List SearchQuery) (files : List FileEntry)
        (init : List Statement) (f : FileEntry), f ∈ files → f.2 = none →
        ∃ e, phase2 (q :: qs) files init = .error e) := by
  refine ⟨fun q => rfl, ?_, ?_, phase2_error_of_unreadable⟩
  · intro qs files f hf hall
    exact List.mem_filter.mpr ⟨hf, hall⟩
  · intro qs files f hf hnone
    have hall := (List.mem_filter.mp hf).2
    cases qs with
    | nil => rfl
    | cons q qs' =>
      exfalso
      have h1 := (List.all_eq_true.mp hall) q (List.mem_cons_self q qs')
      rw [hnone] at h1
      exact Bool.noConfusion h1

/-- C8 amended, witness: a readable matching file survives Phase 1, and a
single unreadable file aborts Phase 2. -/
theorem c8_amended_witness :
    file_is_match q_upd none = false
    ∧ (0, some file_upd_del) ∈ phase1 [q_upd] [((0 : Nat), some file_upd_del)]
    ∧ ∃ e, phase2 [q_upd] [((1 : Nat), (none : Option (List (List Char))))] [] = .error e :=
  ⟨c8_error_handling_amended.1 q_upd,
   c8_error_handling_amended.2.1 [q_upd] [((0 : Nat), some file_upd_del)]
     ((0 : Nat), some file_upd_del) (by simp) (by decide),
   c8_error_handling_amended.2.2.2 q_upd [] [((1 : Nat), none)] []
     ((1 : Nat), none) (by simp) rfl⟩
